import Mathlib

/-!
Verification development for the `sjdiff` structural JSON diff library.

The Rust source is shallowly embedded: JSON values become an inductive type,
`serde_json::Number` becomes a three-variant sum (u64-range naturals, negative
i64-range integers, and floats modelled as rationals), and the stateful
traversal engine (`Diff::values` and friends, which mutate `curr_path`)
becomes explicit state passing: every engine function takes the current path
stack and returns the updated stack alongside its result.
-/

namespace Sjdiff

/-- The scanner character for a single quote, written via its code point. -/
def quoteChar : Char := Char.ofNat 39

/-- `ArrayIndex` from src/src/lib.rs: a concrete array position or the
wildcard `All` written `[_]` in path strings. -/
inductive ArrayIndex
  | index (n : Nat)
  | all
  deriving DecidableEq, Repr

/-- `PathElement` from src/src/lib.rs: an object key or an array index. -/
inductive PathElement
  | key (s : String)
  | arrayIndex (i : ArrayIndex)
  deriving DecidableEq, Repr

/-- `Path` from src/src/lib.rs is a newtype over `Vec<PathElement>`; we embed
it directly as a list. -/
abbrev Path := List PathElement

/-- The wildcard-aware equality of `impl PartialEq for ArrayIndex`
(src/src/lib.rs lines 449-458): `All` equals any index and itself;
two concrete indices are equal iff numerically identical. -/
def ArrayIndex.weq : ArrayIndex → ArrayIndex → Bool
  | .index a, .index b => a == b
  | .all, .index _ => true
  | .index _, .all => true
  | .all, .all => true

/-- The derived `PartialEq` of `PathElement`, which uses the custom
`ArrayIndex` equality: keys compare by string, indices by `ArrayIndex.weq`,
and a key never equals an index. -/
def PathElement.weq : PathElement → PathElement → Bool
  | .key a, .key b => a == b
  | .arrayIndex a, .arrayIndex b => a.weq b
  | .key _, .arrayIndex _ => false
  | .arrayIndex _, .key _ => false

/-- The derived `PartialEq` of `Path` (equality of the underlying vectors):
same length and element-wise `PathElement.weq`. -/
def Path.weq (p q : Path) : Bool :=
  p.length == q.length && (p.zip q).all fun e => e.1.weq e.2

/-! ## Path syntax parser, from src/src/element_path_parser.rs -/

/-- Models `current.parse::<usize>()` in the bracket-closing arm of the
parser: an optional leading plus sign, then one or more ASCII digits, with
the u64 (64-bit `usize`) overflow bound of Rust's `FromStr`. -/
def parseNatDigits (cs : List Char) : Option Nat :=
  let ds := match cs with
    | '+' :: rest => rest
    | _ => cs
  if ds.isEmpty then none
  else if ds.all Char.isDigit then
    let n := ds.foldl (fun acc c => acc * 10 + (c.toNat - '0'.toNat)) 0
    if n < 2 ^ 64 then some n else none
  else none

/-- The character loop of `parse_element_path` (src/src/element_path_parser.rs
lines 14-94), with the loop state (`result`, `current`, `in_quotes`,
`in_brackets`) made explicit, including the end-of-input finalization. -/
def parseGo (result : List PathElement) (current : List Char)
    (inQuotes inBrackets : Bool) : List Char → Except String (List PathElement)
  | [] =>
    if inQuotes then .error "Unclosed quote"
    else if inBrackets then .error "Unclosed bracket"
    else
      let result := if current.isEmpty then result
        else result ++ [.key (String.mk current)]
      if result.isEmpty then .error "Empty path is not allowed" else .ok result
  | c :: cs =>
    if c = quoteChar then
      if inQuotes then
        if current.isEmpty then .error "Empty quoted string is not allowed"
        else parseGo (result ++ [.key (String.mk current)]) [] false inBrackets cs
      else
        if current.isEmpty then parseGo result current true inBrackets cs
        else .error "Unexpected quote"
    else if c = '.' then
      if inQuotes then parseGo result (current ++ [c]) inQuotes inBrackets cs
      else if !current.isEmpty then
        parseGo (result ++ [.key (String.mk current)]) [] inQuotes inBrackets cs
      else if result.isEmpty then .error "Path cannot start with a dot"
      else parseGo result current inQuotes inBrackets cs
    else if c = '[' then
      if inQuotes then parseGo result (current ++ [c]) inQuotes inBrackets cs
      else
        let result := if current.isEmpty then result
          else result ++ [.key (String.mk current)]
        parseGo result [] inQuotes true cs
    else if c = ']' then
      if inQuotes then parseGo result (current ++ [c]) inQuotes inBrackets cs
      else if inBrackets then
        if current = ['_'] then
          parseGo (result ++ [.arrayIndex .all]) [] inQuotes false cs
        else
          match parseNatDigits current with
          | some n => parseGo (result ++ [.arrayIndex (.index n)]) [] inQuotes false cs
          | none => .error ("Invalid array index: " ++ String.mk current)
      else .error "Unexpected closing bracket"
    else parseGo result (current ++ [c]) inQuotes inBrackets cs

/-- `parse_element_path` on a character list: the empty check followed by the
character loop started from the initial state. -/
def parseElementPathList (s : List Char) : Except String (List PathElement) :=
  if s.isEmpty then .error "Empty path is not allowed"
  else parseGo [] [] false false s

/-- `parse_element_path` from src/src/element_path_parser.rs. -/
def parseElementPath (s : String) : Except String (List PathElement) :=
  parseElementPathList s.toList

/-! ## Numbers: `serde_json::Number` and `Diff::compare_numbers` -/

/-- `serde_json::Number`: a non-negative integer in u64 range (`PosInt`), a
negative integer in i64 range (`NegInt`), or a float (`Float`).  The f64
payload is modelled as a rational; f64 rounding is outside the model. -/
inductive JNumber
  | posInt (n : Nat)
  | negInt (n : Int)
  | float (q : ℚ)
  deriving DecidableEq, Repr

/-- `Number::is_u64`: true exactly for the `PosInt` variant. -/
def JNumber.isU64 : JNumber → Bool
  | .posInt _ => true
  | _ => false

/-- `Number::is_i64`: `NegInt` always, `PosInt` when it fits in i64. -/
def JNumber.isI64 : JNumber → Bool
  | .posInt n => n ≤ 2 ^ 63 - 1
  | .negInt _ => true
  | .float _ => false

/-- `Number::is_f64`: true exactly for the `Float` variant. -/
def JNumber.isF64 : JNumber → Bool
  | .float _ => true
  | _ => false

/-- `Number::as_f64().unwrap()` in the rational model (the u64/i64 to f64
rounding is outside the model). -/
def JNumber.asF64 : JNumber → ℚ
  | .posInt n => n
  | .negInt n => n
  | .float q => q

/-- The machine epsilon of f64, `f64::EPSILON`, which is the default
`max_relative` of the `approx` crate's `relative_eq!`. -/
def f64MachineEpsilon : ℚ := 1 / 2 ^ 52

/-- The `approx` crate's `RelativeEq::relative_eq` for f64, in the rational
model: bitwise-equal operands are equal; otherwise the absolute difference is
tested against `epsilon` and then against `max(|a|, |b|) * max_relative`
(rationals have no infinities, so the infinity early-out is vacuous). -/
def relativeEq (epsilon a b : ℚ) : Bool :=
  if a = b then true
  else if |a - b| ≤ epsilon then true
  else |a - b| ≤ max |a| |b| * f64MachineEpsilon

/-! ## JSON values and the difference tree -/

/-- `serde_json::Value`.  Objects are association lists in the map's
iteration order; a well-formed document has pairwise distinct keys. -/
inductive Value
  | null
  | bool (b : Bool)
  | num (n : JNumber)
  | str (s : String)
  | arr (elems : List Value)
  | obj (entries : List (String × Value))
  deriving Repr

/-- The `Type` tag enum of src/src/lib.rs. -/
inductive JType
  | null
  | array
  | bool
  | object
  | string
  | number
  deriving DecidableEq, Repr

/-- `impl From<serde_json::Value> for Type` (src/src/lib.rs lines 436-447). -/
def Value.toType : Value → JType
  | .null => .null
  | .bool _ => .bool
  | .num _ => .number
  | .str _ => .string
  | .arr _ => .array
  | .obj _ => .object

/-- `ScalarDifference` from src/src/lib.rs. -/
inductive ScalarDifference
  | bool (source target : Bool)
  | str (source target : String)
  | num (source target : JNumber)
  deriving Repr

mutual

/-- `Difference` from src/src/lib.rs. -/
inductive Difference
  | scalar (s : ScalarDifference)
  | type (sourceType : JType) (sourceValue : Value) (targetType : JType)
      (targetValue : Value)
  | array (a : ArrayDifference)
  | object (differentEntries : List (String × EntryDifference))

/-- `EntryDifference` from src/src/lib.rs. -/
inductive EntryDifference
  | missing (value : Value)
  | extra (value : Value)
  | value (valueDiff : Difference)

/-- `ArrayDifference` from src/src/lib.rs. -/
inductive ArrayDifference
  | pairsOnly (differentPairs : List (Nat × Difference))
  | shorter (differentPairs : Option (List (Nat × Difference)))
      (missingElements : List Value)
  | longer (differentPairs : Option (List (Nat × Difference)))
      (extraLength : Nat)

end

/-! ## Configuration -/

/-- `IgnorePath(pub Path, pub bool)` from src/src/lib.rs. -/
structure IgnorePath where
  path : Path
  ignoreMissing : Bool

/-- The configuration fields of the `Diff` struct (src/src/lib.rs lines
126-157), minus the traversal cursor which is threaded explicitly.  The
exemption test is carried as a function `ignore` standing for the
`self.ignore_path(has_key)` calls; for the plain registry of the source it
is instantiated with `Sjdiff.ignorePath appliedToTheRegistry`.  The chrono
rfc3339 parser is an external collaborator and is carried as an abstract
deterministic function returning a timestamp in nanoseconds; `duration` is
`approx_date_time_eq_duration` in the same unit. -/
structure Config where
  ignore : Path → Bool → Bool
  equateEmptyArrays : Bool
  epsilon : ℚ
  duration : Nat
  parseRfc3339 : String → Option Int

/-- `Diff::ignore_path` (src/src/lib.rs lines 421-433): find the first
registered path that equals the current one under wildcard equality, then
run the guard chain of the `match`. -/
def ignorePath (ignorePaths : List IgnorePath) (currPath : Path)
    (hasKey : Bool) : Bool :=
  match ignorePaths.find? (fun p => p.path.weq currPath) with
  | some e =>
    if e.path.weq currPath && hasKey then true
    else if e.path.weq currPath && !hasKey && e.ignoreMissing then true
    else if e.path.weq currPath && !hasKey && !e.ignoreMissing then false
    else false
  | none => false

/-! ## Scalar comparators -/

/-- `Diff::compare_strings` (src/src/lib.rs lines 360-389): when a temporal
tolerance is configured and both strings parse as rfc3339 timestamps, the
absolute delta is compared against the tolerance; otherwise exact string
equality. -/
def compareStrings (cfg : Config) (source target : String) : Option Difference :=
  if cfg.duration ≠ 0 then
    match cfg.parseRfc3339 source, cfg.parseRfc3339 target with
    | some a, some b =>
      if (a - b).natAbs > cfg.duration then
        some (.scalar (.str source target))
      else none
    | _, _ =>
      if source == target then none else some (.scalar (.str source target))
  else
    if source == target then none else some (.scalar (.str source target))

/-- `Diff::compare_numbers` (src/src/lib.rs lines 391-413): both-u64 or
both-i64 pairs compare by `Number`'s own equality; else if either side is a
float, by `relative_eq!` with the configured epsilon; any remaining pair
yields no difference. -/
def compareNumbers (cfg : Config) (source target : JNumber) : Option Difference :=
  if source.isU64 && target.isU64 || source.isI64 && target.isI64 then
    if source = target then none
    else some (.scalar (.num source target))
  else if source.isF64 || target.isF64 then
    if relativeEq cfg.epsilon source.asF64 target.asF64 then none
    else some (.scalar (.num source target))
  else none

/-! ## Association-list operations of `serde_json::Map` -/

/-- `Map::contains_key`. -/
def containsKey (m : List (String × Value)) (k : String) : Bool :=
  m.any fun e => e.1 == k

/-- The lookup half of `Map::remove`: the value stored at `k`, if any. -/
def getValue : List (String × Value) → String → Option Value
  | [], _ => none
  | (k2, v) :: rest, k => if k2 == k then some v else getValue rest k

/-- The removal half of `Map::remove`: drop the entry stored at `k`. -/
def removeKey : List (String × Value) → String → List (String × Value)
  | [], _ => []
  | (k2, v) :: rest, k => if k2 == k then rest else (k2, v) :: removeKey rest k

theorem getValue_sizeOf_lt {m : List (String × Value)} {k : String} {v : Value}
    (h : getValue m k = some v) : sizeOf v < sizeOf m := by
  induction m with
  | nil => simp [getValue] at h
  | cons e rest ih =>
    obtain ⟨k2, v2⟩ := e
    by_cases hk : (k2 == k) = true
    · simp [getValue, hk] at h
      subst h
      simp
      omega
    · simp [getValue, hk] at h
      have := ih h
      simp only [List.cons.sizeOf_spec]
      omega

theorem removeKey_sizeOf_le (m : List (String × Value)) (k : String) :
    sizeOf (removeKey m k) ≤ sizeOf m := by
  induction m with
  | nil => simp [removeKey]
  | cons e rest ih =>
    obtain ⟨k2, v2⟩ := e
    by_cases hk : (k2 == k) = true
    · simp [removeKey, hk]
      try omega
    · simp [removeKey, hk]
      try omega

/-! ## The comparison engine

`Diff` owns a mutable `curr_path: Path` (a stack: `push` appends at the end,
`pop` removes the last element).  Each engine method below takes the stack as
an explicit `st : Path` argument and returns the stack it leaves behind. -/

/-- The remaining-target-keys loop of `Diff::objects` (src/src/lib.rs lines
294-308): push the key, test the exemption with `has_key = false`, record a
`Missing` entry unless exempt, pop. -/
def missingEntries (cfg : Config) (st : Path) :
    List (String × Value) → List (String × EntryDifference) × Path
  | [] => ([], st)
  | (k, v) :: rest =>
    let st2 := st ++ [.key k]
    let ig := cfg.ignore st2 false
    let r := missingEntries cfg st2.dropLast rest
    (if ig then r.1 else (k, .missing v) :: r.1, r.2)

mutual

/-- `Diff::values` (src/src/lib.rs lines 320-357), arms in source order; the
two guarded arms for `equate_empty_arrays` keep their fall-through to the
final type-mismatch arm. -/
def values (cfg : Config) (st : Path) (s t : Value) : Option Difference × Path :=
  match s, t with
  | .null, .null => (none, st)
  | .bool a, .bool b =>
    (if a == b then none else some (.scalar (.bool a b)), st)
  | .num a, .num b => (compareNumbers cfg a b, st)
  | .str a, .str b => (compareStrings cfg a b, st)
  | .arr a, .arr b =>
    ((arrays cfg st a b).1.map .array, (arrays cfg st a b).2)
  | .obj a, .obj b =>
    ((objects cfg st a b).1.map .object, (objects cfg st a b).2)
  | .arr a, .null =>
    if cfg.equateEmptyArrays && a.length == 0 then (none, st)
    else (some (.type (Value.arr a).toType (.arr a) Value.null.toType .null), st)
  | .null, .arr b =>
    if cfg.equateEmptyArrays && b.length == 0 then (none, st)
    else (some (.type Value.null.toType .null (Value.arr b).toType (.arr b)), st)
  | s, t => (some (.type s.toType s t.toType t), st)
termination_by (sizeOf s + sizeOf t, 3)

/-- `Diff::arrays` (src/src/lib.rs lines 210-233): collect the differing
overlapping pairs, then classify by length.  The final pop of
`compare_array_elements` is the `iterations != 0` case, where `iterations`
is the number of zipped pairs. -/
def arrays (cfg : Config) (st : Path) (a b : List Value) :
    Option ArrayDifference × Path :=
  let r := caeGo cfg st 0 a b
  let st2 := if min a.length b.length ≠ 0 then r.2.dropLast else r.2
  let dp : Option (List (Nat × Difference)) :=
    if r.1.isEmpty then none else some r.1
  if a.length > b.length then
    (some (.longer dp (a.length - b.length)), st2)
  else if a.length < b.length then
    (some (.shorter dp (b.drop a.length)), st2)
  else (dp.map .pairsOnly, st2)
termination_by (sizeOf a + sizeOf b, 2)

/-- The enumerated loop body of `Diff::compare_array_elements`
(src/src/lib.rs lines 235-258): for pair `i`, pop the previous sibling index
when `i > 0`, push `Index(i)`, recurse, and keep `(i, diff)` when the
recursion found a difference.  Simultaneous recursion on the two lists is
`zip(..).enumerate()`. -/
def caeGo (cfg : Config) (st : Path) (i : Nat) :
    List Value → List Value → List (Nat × Difference) × Path
  | s :: ss, t :: ts =>
    let st2 := (if i > 0 then st.dropLast else st) ++ [.arrayIndex (.index i)]
    let v := values cfg st2 s t
    let r := caeGo cfg v.2 (i + 1) ss ts
    (match v.1 with
     | some d => (i, d) :: r.1
     | none => r.1, r.2)
  | [], _ => ([], st)
  | _ :: _, [] => ([], st)
termination_by ss ts => (sizeOf ss + sizeOf ts, 1)

/-- `Diff::objects` (src/src/lib.rs lines 261-314): the source-key loop, the
final pop when the source map was non-empty, then the remaining target keys
as `Missing` entries, and the empty-collection collapse. -/
def objects (cfg : Config) (st : Path) (a b : List (String × Value)) :
    Option (List (String × EntryDifference)) × Path :=
  let r := objGo cfg st true b a
  let st2 := if a.isEmpty then r.2.1 else r.2.1.dropLast
  let m := missingEntries cfg st2 r.2.2
  let all := r.1 ++ m.1
  (if all.isEmpty then none else some all, m.2)
termination_by (sizeOf a + sizeOf b, 2)

/-- The source-key loop of `Diff::objects`: `isFirst` is the `is_first`
flag (pop the previous sibling key except on the first iteration), `tgt` the
shrinking target map.  Returns the collected entries, the path stack, and
what remains of the target map. -/
def objGo (cfg : Config) (st : Path) (isFirst : Bool)
    (tgt : List (String × Value)) :
    List (String × Value) →
      List (String × EntryDifference) × Path × List (String × Value)
  | [] => ([], st, tgt)
  | (k, v) :: rest =>
    let st2 := (if isFirst then st else st.dropLast) ++ [.key k]
    if cfg.ignore st2 (containsKey tgt k) then
      have _hrm : sizeOf (removeKey tgt k) ≤ sizeOf tgt := removeKey_sizeOf_le tgt k
      objGo cfg st2 false (removeKey tgt k) rest
    else
      match hg : getValue tgt k with
      | none =>
        let r := objGo cfg st2 false tgt rest
        ((k, .extra v) :: r.1, r.2)
      | some tv =>
        have _htv : sizeOf tv < sizeOf tgt := getValue_sizeOf_lt hg
        have _hrm : sizeOf (removeKey tgt k) ≤ sizeOf tgt := removeKey_sizeOf_le tgt k
        let vres := values cfg st2 v tv
        let r := objGo cfg vres.2 false (removeKey tgt k) rest
        (match vres.1 with
         | some d => (k, .value d) :: r.1
         | none => r.1, r.2)
termination_by src => (sizeOf src + sizeOf tgt, 1)

end

/-- `Diff::compare` (src/src/lib.rs lines 316-318): run `values` on the two
whole trees starting from the builder's empty `curr_path`. -/
def compare (cfg : Config) (source target : Value) : Option Difference :=
  (values cfg [] source target).1

/-- A default configuration: no exemptions, no empty-array equation, zero
tolerances, and an rfc3339 parser that accepts nothing. -/
def cfgDefault : Config :=
  { ignore := ignorePath [], equateEmptyArrays := false, epsilon := 0,
    duration := 0, parseRfc3339 := fun _ => none }

/-! ## Spec-side, state-free descriptions of the engine

The following definitions follow the wording of the specification; the
master characterization theorem below proves that the stateful engine
computes them and restores the traversal cursor. -/

/-- Follows the spec's words (§4.4, arrays): pairwise comparison of the
overlapping indices, each element compared at the child path
`base ++ [Index i]`; the result is exactly the differing `(index, diff)`
pairs, in index order. -/
def differentPairsSpec (cfg : Config) (base : Path) :
    Nat → List Value → List Value → List (Nat × Difference)
  | i, s :: ss, t :: ts =>
    match (values cfg (base ++ [.arrayIndex (.index i)]) s t).1 with
    | some d => (i, d) :: differentPairsSpec cfg base (i + 1) ss ts
    | none => differentPairsSpec cfg base (i + 1) ss ts
  | _, [], _ => []
  | _, _ :: _, [] => []

/-- Follows the spec's words (§4.4, array classification): equal lengths
give `PairsOnly` (omitted when no pair differs), a longer source gives
`Longer` with the extra count, a shorter source gives `Shorter` with the
missing tail of the target. -/
def arraysSpecFst (cfg : Config) (base : Path) (a b : List Value) :
    Option ArrayDifference :=
  let dp := differentPairsSpec cfg base 0 a b
  let dpOpt : Option (List (Nat × Difference)) :=
    if dp.isEmpty then none else some dp
  if a.length > b.length then some (.longer dpOpt (a.length - b.length))
  else if a.length < b.length then some (.shorter dpOpt (b.drop a.length))
  else dpOpt.map .pairsOnly

/-- Follows the spec's words (§4.4, objects), source keys in order: a key
exempt with `hasOppositeKey = target has key` is dropped from both sides; a
key the target lacks is `Extra`; a shared key recurses at the child path
`base ++ [Key k]` and a non-empty result is wrapped as `Value`.  Returns the
collected entries together with the remaining, never-matched target
entries. -/
def objectEntriesSpec (cfg : Config) (base : Path) :
    List (String × Value) → List (String × Value) →
      List (String × EntryDifference) × List (String × Value)
  | [], tgt => ([], tgt)
  | (k, v) :: rest, tgt =>
    if cfg.ignore (base ++ [.key k]) (containsKey tgt k) then
      objectEntriesSpec cfg base rest (removeKey tgt k)
    else
      match getValue tgt k with
      | none =>
        let r := objectEntriesSpec cfg base rest tgt
        ((k, .extra v) :: r.1, r.2)
      | some tv =>
        let r := objectEntriesSpec cfg base rest (removeKey tgt k)
        (match (values cfg (base ++ [.key k]) v tv).1 with
         | some d => (k, .value d) :: r.1
         | none => r.1, r.2)

/-- Follows the spec's words (§4.4, objects): every remaining target key is
reported `Missing` at its child path unless exempt with
`hasOppositeKey = false`. -/
def missingEntriesSpec (cfg : Config) (base : Path)
    (tgt : List (String × Value)) : List (String × EntryDifference) :=
  tgt.filterMap fun e =>
    if cfg.ignore (base ++ [.key e.1]) false then none
    else some (e.1, .missing e.2)

/-- Follows the spec's words (§4.4, objects): the collected source-key
entries followed by the missing-key entries, collapsing an empty collection
to no difference. -/
def objectsSpecFst (cfg : Config) (base : Path)
    (a b : List (String × Value)) : Option (List (String × EntryDifference)) :=
  let r := objectEntriesSpec cfg base a b
  let all := r.1 ++ missingEntriesSpec cfg base r.2
  if all.isEmpty then none else some all

/-- The key of the last entry of an association list, if any. -/
def lastEntryKey : List (String × Value) → Option String
  | [] => none
  | [e] => some e.1
  | _ :: e :: rest => lastEntryKey (e :: rest)

theorem missingEntries_eq (cfg : Config) (st : Path)
    (tgt : List (String × Value)) :
    missingEntries cfg st tgt = (missingEntriesSpec cfg st tgt, st) := by
  induction tgt with
  | nil => simp [missingEntries, missingEntriesSpec]
  | cons e rest ih =>
    obtain ⟨k, v⟩ := e
    simp [missingEntries, missingEntriesSpec, List.filterMap_cons] at ih ⊢
    rw [ih]
    cases hig : cfg.ignore (st ++ [.key k]) false <;> simp [hig]

theorem lastEntryKey_cons_eq (k : String) (v : Value)
    (rest : List (String × Value)) :
    lastEntryKey ((k, v) :: rest) = some ((lastEntryKey rest).getD k) := by
  induction rest generalizing k v with
  | nil => simp [lastEntryKey]
  | cons e rest2 ih =>
    obtain ⟨k2, v2⟩ := e
    rw [show lastEntryKey ((k, v) :: (k2, v2) :: rest2) =
      lastEntryKey ((k2, v2) :: rest2) from rfl]
    rw [ih k2 v2]
    simp [lastEntryKey_cons_eq]

/-- Entry state of the `compare_array_elements` loop at index `i`: the base
path, with the previous sibling index still pushed when `i > 0`. -/
def caeEntrySt (base : Path) (i : Nat) : Path :=
  if i = 0 then base else base ++ [.arrayIndex (.index (i - 1))]

/-- `values` restores the cursor on every exit path, for inputs of size at
most `n`. -/
def Pv (n : Nat) : Prop :=
  ∀ (cfg : Config) (st : Path) (s t : Value),
    sizeOf s + sizeOf t ≤ n → (values cfg st s t).2 = st

/-- The array-element loop computes the spec-side differing pairs and leaves
the stack in the documented shape. -/
def Pc (n : Nat) : Prop :=
  ∀ (cfg : Config) (base : Path) (i : Nat) (ss ts : List Value),
    sizeOf ss + sizeOf ts ≤ n →
    caeGo cfg (caeEntrySt base i) i ss ts =
      (differentPairsSpec cfg base i ss ts,
       if min ss.length ts.length = 0 then caeEntrySt base i
       else base ++ [.arrayIndex (.index (i + min ss.length ts.length - 1))])

/-- `arrays` computes the spec-side classification and restores the
cursor. -/
def Pa (n : Nat) : Prop :=
  ∀ (cfg : Config) (st : Path) (a b : List Value),
    sizeOf a + sizeOf b ≤ n →
    arrays cfg st a b = (arraysSpecFst cfg st a b, st)

/-- The source-key loop computes the spec-side entries and remaining target,
leaving the last pushed key on the stack: one conjunct for the first
iteration (nothing to pop), one for later iterations (the previous sibling
element is popped first). -/
def Pg (n : Nat) : Prop :=
  ∀ (cfg : Config) (base : Path) (tgt src : List (String × Value)),
    sizeOf src + sizeOf tgt ≤ n →
    (objGo cfg base true tgt src =
      ((objectEntriesSpec cfg base src tgt).1,
       (match lastEntryKey src with
        | none => base
        | some kk => base ++ [.key kk]),
       (objectEntriesSpec cfg base src tgt).2)) ∧
    (∀ prev : PathElement, objGo cfg (base ++ [prev]) false tgt src =
      ((objectEntriesSpec cfg base src tgt).1,
       (match lastEntryKey src with
        | none => base ++ [prev]
        | some kk => base ++ [.key kk]),
       (objectEntriesSpec cfg base src tgt).2))

/-- `objects` computes the spec-side entry collection and restores the
cursor. -/
def Po (n : Nat) : Prop :=
  ∀ (cfg : Config) (st : Path) (a b : List (String × Value)),
    sizeOf a + sizeOf b ≤ n →
    objects cfg st a b = (objectsSpecFst cfg st a b, st)

/-- Master characterization: for every input size bound, the stateful
engine functions compute their spec-side descriptions and restore the
traversal cursor. -/
theorem engine_master : ∀ n : Nat, Pv n ∧ Pa n ∧ Pc n ∧ Po n ∧ Pg n := by
  intro n
  induction n using Nat.strong_induction_on with
  | _ n ih =>
  have ihv : ∀ (cfg : Config) (st : Path) (s t : Value),
      sizeOf s + sizeOf t < n → (values cfg st s t).2 = st :=
    fun cfg st s t h => (ih _ h).1 cfg st s t le_rfl
  have ihc : ∀ (cfg : Config) (base : Path) (i : Nat) (ss ts : List Value),
      sizeOf ss + sizeOf ts < n →
      caeGo cfg (caeEntrySt base i) i ss ts =
        (differentPairsSpec cfg base i ss ts,
         if min ss.length ts.length = 0 then caeEntrySt base i
         else base ++ [.arrayIndex (.index (i + min ss.length ts.length - 1))]) :=
    fun cfg base i ss ts h => (ih _ h).2.2.1 cfg base i ss ts le_rfl
  have ihg : ∀ (cfg : Config) (base : Path) (tgt src : List (String × Value)),
      sizeOf src + sizeOf tgt < n →
      (objGo cfg base true tgt src =
        ((objectEntriesSpec cfg base src tgt).1,
         (match lastEntryKey src with
          | none => base
          | some kk => base ++ [.key kk]),
         (objectEntriesSpec cfg base src tgt).2)) ∧
      (∀ prev : PathElement, objGo cfg (base ++ [prev]) false tgt src =
        ((objectEntriesSpec cfg base src tgt).1,
         (match lastEntryKey src with
          | none => base ++ [prev]
          | some kk => base ++ [.key kk]),
         (objectEntriesSpec cfg base src tgt).2)) :=
    fun cfg base tgt src h => (ih _ h).2.2.2.2 cfg base tgt src le_rfl
  have iha : ∀ (cfg : Config) (st : Path) (a b : List Value),
      sizeOf a + sizeOf b < n → arrays cfg st a b = (arraysSpecFst cfg st a b, st) :=
    fun cfg st a b h => (ih _ h).2.1 cfg st a b le_rfl
  have iho : ∀ (cfg : Config) (st : Path) (a b : List (String × Value)),
      sizeOf a + sizeOf b < n → objects cfg st a b = (objectsSpecFst cfg st a b, st) :=
    fun cfg st a b h => (ih _ h).2.2.2.1 cfg st a b le_rfl
  have hc : Pc n := by
    intro cfg base i ss ts hsz
    match ss, ts with
    | [], ts => simp [caeGo, differentPairsSpec]
    | s :: ss2, [] => simp [caeGo, differentPairsSpec]
    | s :: ss2, t :: ts2 =>
      rw [caeGo]
      have hst1 : (if i > 0 then (caeEntrySt base i).dropLast else caeEntrySt base i) = base := by
        unfold caeEntrySt
        rcases Nat.eq_zero_or_pos i with h0 | h0
        · simp [h0]
        · have : i ≠ 0 := Nat.pos_iff_ne_zero.mp h0
          simp [this, h0]
      rw [hst1]
      simp only [List.cons.sizeOf_spec] at hsz
      have hv1 : (values cfg (base ++ [.arrayIndex (.index i)]) s t).2 =
          base ++ [.arrayIndex (.index i)] := ihv _ _ s t (by omega)
      rw [hv1]
      have hrec := ihc cfg base (i + 1) ss2 ts2 (by omega)
      have hent : caeEntrySt base (i + 1) = base ++ [.arrayIndex (.index i)] := by
        simp [caeEntrySt]
      rw [hent] at hrec
      rw [hrec]
      rw [show differentPairsSpec cfg base i (s :: ss2) (t :: ts2) =
        (match (values cfg (base ++ [.arrayIndex (.index i)]) s t).1 with
         | some d => (i, d) :: differentPairsSpec cfg base (i + 1) ss2 ts2
         | none => differentPairsSpec cfg base (i + 1) ss2 ts2) from rfl]
      cases hd : (values cfg (base ++ [.arrayIndex (.index i)]) s t).1 <;>
        · simp only [hd]
          rcases Nat.eq_zero_or_pos (min ss2.length ts2.length) with hm | hm
          · simp [hm, hent, Nat.succ_min_succ, caeEntrySt]
          · have hm2 : min ss2.length ts2.length ≠ 0 := Nat.pos_iff_ne_zero.mp hm
            simp [hm2, Nat.succ_min_succ]
  have ha : Pa n := by
    intro cfg st a b hsz
    rw [arrays]
    have hc0 := hc cfg st 0 a b hsz
    simp [caeEntrySt] at hc0
    rw [hc0]
    rcases Nat.eq_zero_or_pos (min a.length b.length) with hm | hm
    · simp [hm, arraysSpecFst]
      split_ifs <;> rfl
    · have hm2 : min a.length b.length ≠ 0 := Nat.pos_iff_ne_zero.mp hm
      simp [hm2, arraysSpecFst]
      split_ifs <;> rfl
  have hg : Pg n := by
    intro cfg base tgt src hsz
    match src with
    | [] =>
      constructor
      · rw [objGo]; simp [objectEntriesSpec, lastEntryKey]
      · intro prev; rw [objGo]; simp [objectEntriesSpec, lastEntryKey]
    | (k, v) :: rest =>
      simp only [List.cons.sizeOf_spec, Prod.mk.sizeOf_spec] at hsz
      constructor
      case' left => rw [objGo]
      case' right => intro prev; rw [objGo]
      all_goals simp only [if_true, List.dropLast_concat]
      all_goals rcases hig : cfg.ignore (base ++ [.key k]) (containsKey tgt k) with _ | _
      all_goals rw [objectEntriesSpec]
      all_goals simp only [hig, Bool.false_eq_true, if_false, if_true]
      all_goals simp only [lastEntryKey_cons_eq]
      all_goals first
        | (rw [(ihg cfg base (removeKey tgt k) rest (by
              have := removeKey_sizeOf_le tgt k; omega)).2 (.key k)]
           cases hlk : lastEntryKey rest <;> simp [hlk])
        | (cases hgv : getValue tgt k with
           | none =>
             rw [(ihg cfg base tgt rest (by omega)).2 (.key k)]
             cases hlk : lastEntryKey rest <;> simp [hlk]
           | some tv =>
             have hvv : (values cfg (base ++ [.key k]) v tv).2 = base ++ [.key k] :=
               ihv _ _ v tv (by have := getValue_sizeOf_lt hgv; omega)
             have hrec := (ihg cfg base (removeKey tgt k) rest (by
               have := removeKey_sizeOf_le tgt k; omega)).2 (.key k)
             cases hlk : lastEntryKey rest <;>
               cases hd : (values cfg (base ++ [.key k]) v tv).1 <;>
                 simp [hvv, hrec, hlk, hd])
  have ho : Po n := by
    intro cfg st a b hsz
    rw [objects]
    have hr := (hg cfg st b a (by omega)).1
    rw [hr]
    match a with
    | [] =>
      simp only [lastEntryKey, List.isEmpty_nil, if_true]
      rw [missingEntries_eq]
      simp [objectsSpecFst]
    | (k, v) :: rest =>
      simp only [lastEntryKey_cons_eq, List.isEmpty_cons, if_false]
      simp only [List.dropLast_concat]
      rw [missingEntries_eq]
      simp [objectsSpecFst]
  have hv : Pv n := by
    intro cfg st s t hsz
    rcases s with _ | a | a | a | a | a <;> rcases t with _ | b | b | b | b | b <;>
      simp only [values.eq_def] <;> try rfl
    all_goals try (split <;> rfl)
    · have := iha cfg st a b (by
        simp only [Value.arr.sizeOf_spec] at hsz; omega)
      simp [this]
    · have := iho cfg st a b (by
        simp only [Value.obj.sizeOf_spec] at hsz; omega)
      simp [this]
  exact ⟨hv, ha, hc, ho, hg⟩


/-! ## Wildcard path equality -/

theorem Path.weq_iff (p q : Path) :
    Path.weq p q = true ↔
      p.length = q.length ∧
        List.Forall₂ (fun a b => PathElement.weq a b = true) p q := by
  induction p generalizing q with
  | nil => cases q <;> simp [Path.weq]
  | cons a p ih =>
    cases q with
    | nil => simp [Path.weq]
    | cons b q =>
      have h := ih q
      simp only [Path.weq, List.length_cons, List.zip_cons_cons, List.all_cons,
        Bool.and_eq_true, beq_iff_eq, List.forall₂_cons, Nat.add_right_cancel_iff] at h ⊢
      tauto

/-! ## The exemption decision of `ignore_path` -/

theorem ignorePath_eq_table (ips : List IgnorePath) (curr : Path) (hasKey : Bool) :
    ignorePath ips curr hasKey =
      match ips.find? (fun p => p.path.weq curr) with
      | none => false
      | some e => hasKey || e.ignoreMissing := by
  unfold ignorePath
  cases h : ips.find? (fun p => p.path.weq curr) with
  | none => rfl
  | some e =>
    have hw : e.path.weq curr = true := by
      simpa using List.find?_some h
    cases hasKey <;> cases he : e.ignoreMissing <;> simp [hw, he]

/-! ## Reflexivity of the comparison -/

theorem compareNumbers_refl (cfg : Config) (m : JNumber) :
    compareNumbers cfg m m = none := by
  cases m <;>
    simp [compareNumbers, JNumber.isU64, JNumber.isI64, JNumber.isF64,
      JNumber.asF64, relativeEq]

theorem compareStrings_refl (cfg : Config) (s : String) :
    compareStrings cfg s s = none := by
  unfold compareStrings
  by_cases hd : cfg.duration = 0
  · simp [hd]
  · simp only [hd, ne_eq, not_false_eq_true, if_true]
    cases hp : cfg.parseRfc3339 s <;> simp [hp]

theorem values_refl (cfg : Config) (hig : ∀ p k, cfg.ignore p k = false) :
    ∀ (n : Nat) (T : Value) (st : Path), sizeOf T ≤ n →
      (values cfg st T T).1 = none := by
  intro n
  induction n using Nat.strong_induction_on with
  | _ n ih =>
  intro T st hsz
  rcases T with _ | b | m | s | a | a
  · simp [values]
  · simp [values]
  · simp [values, compareNumbers_refl]
  · simp [values, compareStrings_refl]
  · simp only [Value.arr.sizeOf_spec] at hsz
    have ha := (engine_master (sizeOf a + sizeOf a)).2.1 cfg st a a le_rfl
    have hdp : ∀ (l : List Value) (i : Nat) (st2 : Path), sizeOf l ≤ sizeOf a →
        differentPairsSpec cfg st2 i l l = [] := by
      intro l
      induction l with
      | nil => intro i st2 _; simp [differentPairsSpec]
      | cons x l2 ihl =>
        intro i st2 hle
        simp only [List.cons.sizeOf_spec] at hle
        have hx : (values cfg (st2 ++ [.arrayIndex (.index i)]) x x).1 = none :=
          ih (sizeOf x) (by omega) x _ le_rfl
        simp [differentPairsSpec, hx, ihl (i + 1) _ (by omega)]
    rw [values.eq_def]
    simp only [ha]
    simp [arraysSpecFst, hdp a 0 st le_rfl]
  · simp only [Value.obj.sizeOf_spec] at hsz
    have ho := (engine_master (sizeOf a + sizeOf a)).2.2.2.1 cfg st a a le_rfl
    have hoe : ∀ (l : List (String × Value)) (st2 : Path), sizeOf l ≤ sizeOf a →
        objectEntriesSpec cfg st2 l l = ([], []) := by
      intro l
      induction l with
      | nil => intro st2 _; simp [objectEntriesSpec]
      | cons e l2 ihl =>
        obtain ⟨k, v⟩ := e
        intro st2 hle
        simp only [List.cons.sizeOf_spec, Prod.mk.sizeOf_spec] at hle
        have hv : (values cfg (st2 ++ [.key k]) v v).1 = none :=
          ih (sizeOf v) (by omega) v _ le_rfl
        simp [objectEntriesSpec, hig, getValue, removeKey, hv,
          ihl _ (by omega)]
    rw [values.eq_def]
    simp only [ho]
    simp [objectsSpecFst, hoe a st le_rfl, missingEntriesSpec]

/-! ## Claim theorems -/

/-- C2: the exemption decision selects the first registered exemption whose
pattern is wildcard-equal to the current path; with no match the path is not
exempt; a match is exempt when `hasOppositeKey` is true, and otherwise
exactly when its `ignoreWhenMissing` flag is true (so with both false the
entry is still reported). -/
theorem c2_exemption_decision (ips : List IgnorePath) (curr : Path)
    (hasKey : Bool) :
    ignorePath ips curr hasKey =
      match ips.find? (fun p => p.path.weq curr) with
      | none => false
      | some e => hasKey || e.ignoreMissing :=
  ignorePath_eq_table ips curr hasKey

/-- C5: `PathElement` equality is wildcard-aware: `All` equals any concrete
index and `All` itself; two concrete indices are equal iff numerically
identical; a key never equals an index; two paths are equal iff they have
the same length and are element-wise equal under this rule; and the pattern
`a.[_].c` equals the concrete paths `a.[0].c`, `a.[7].c` and itself, but
not `a.[0].d`. -/
theorem c5_wildcard_path_equality :
    (∀ n, ArrayIndex.weq .all (.index n) = true) ∧
    (∀ n, ArrayIndex.weq (.index n) .all = true) ∧
    ArrayIndex.weq .all .all = true ∧
    (∀ a b, ArrayIndex.weq (.index a) (.index b) = true ↔ a = b) ∧
    (∀ s i, PathElement.weq (.key s) (.arrayIndex i) = false) ∧
    (∀ s i, PathElement.weq (.arrayIndex i) (.key s) = false) ∧
    (∀ p q : Path, Path.weq p q = true ↔
      p.length = q.length ∧
        List.Forall₂ (fun a b => PathElement.weq a b = true) p q) ∧
    parseElementPath "a.[_].c" = .ok [.key "a", .arrayIndex .all, .key "c"] ∧
    Path.weq [.key "a", .arrayIndex .all, .key "c"]
      [.key "a", .arrayIndex (.index 0), .key "c"] = true ∧
    Path.weq [.key "a", .arrayIndex .all, .key "c"]
      [.key "a", .arrayIndex (.index 7), .key "c"] = true ∧
    Path.weq [.key "a", .arrayIndex .all, .key "c"]
      [.key "a", .arrayIndex .all, .key "c"] = true ∧
    Path.weq [.key "a", .arrayIndex .all, .key "c"]
      [.key "a", .arrayIndex (.index 0), .key "d"] = false := by
  refine ⟨fun n => rfl, fun n => rfl, rfl, ?_, fun s i => rfl, fun s i => rfl,
    Path.weq_iff, ?_, ?_, ?_, ?_, ?_⟩
  · intro a b
    simp [ArrayIndex.weq]
  · rfl
  · rfl
  · rfl
  · rfl
  · rfl

/-- C6: every recursive comparison call on a pair of subtrees restores
`curr_path` to exactly its pre-call value on every exit path, so the
subsequent sibling comparison observes the correct path. -/
theorem c6_curr_path_restored (cfg : Config) (st : Path) (s t : Value) :
    (values cfg st s t).2 = st :=
  (engine_master (sizeOf s + sizeOf t)).1 cfg st s t le_rfl

/-- C3: for every pair of arrays the engine pairwise-compares the
overlapping indices (the differing pairs being `differentPairsSpec`) and
classifies by length: equal lengths with no differing pair collapse to no
difference; equal lengths with differing pairs give `PairsOnly` holding
exactly those pairs; a longer source gives `Longer` with
`extra_length = sourceLen - targetLen`; a shorter source gives `Shorter`
whose `missing_elements` are the target elements from index `sourceLen`
onward.  The cursor is restored. -/
theorem c3_array_classification (cfg : Config) (st : Path) (a b : List Value) :
    arrays cfg st a b =
      (let dp := differentPairsSpec cfg st 0 a b
       if a.length > b.length then
         some (.longer (if dp.isEmpty then none else some dp)
           (a.length - b.length))
       else if a.length < b.length then
         some (.shorter (if dp.isEmpty then none else some dp)
           (b.drop a.length))
       else if dp.isEmpty then none else some (.pairsOnly dp), st) := by
  have h := (engine_master (sizeOf a + sizeOf b)).2.1 cfg st a b le_rfl
  rw [h]
  unfold arraysSpecFst
  cases hd : (differentPairsSpec cfg st 0 a b).isEmpty <;> simp [hd]

/-- C4: for every pair of objects, `objects` computes exactly the spec-side
entry collection: each source key checked with
`hasOppositeKey = target has key`, exempt keys dropped from both sides,
target-missing keys recorded `Extra`, shared keys recursed and wrapped as
`Value` when non-empty (this is `objectEntriesSpec`); then the remaining
target keys checked with `hasOppositeKey = false` and recorded `Missing`
unless exempt (`missingEntriesSpec`); an empty collection collapses to no
difference, and the cursor is restored. -/
theorem c4_object_entries (cfg : Config) (st : Path)
    (a b : List (String × Value)) :
    objects cfg st a b =
      (let r := objectEntriesSpec cfg st a b
       let all := r.1 ++ missingEntriesSpec cfg st r.2
       if all.isEmpty then none else some all, st) :=
  (engine_master (sizeOf a + sizeOf b)).2.2.2.1 cfg st a b le_rfl

/-- C8: for every tree and every configuration with no exemption granted,
comparing the tree with itself yields no difference. -/
theorem c8_compare_reflexive (cfg : Config) (T : Value)
    (h : ∀ p k, cfg.ignore p k = false) : compare cfg T T = none :=
  values_refl cfg h (sizeOf T) T [] le_rfl

/-- A small document exercising every value kind, used as the reflexivity
witness input. -/
def exampleDoc : Value :=
  .obj [("string", .str "b"), ("int", .num (.posInt 1)),
    ("float", .num (.float 1)), ("bool", .bool true),
    ("arr", .arr [.num (.posInt 1), .null]),
    ("object", .obj [("k", .str "v")])]

/-- Witness for C8 at a concrete document and the no-exemption
configuration. -/
theorem c8_compare_reflexive_witness : compare cfgDefault exampleDoc exampleDoc = none :=
  c8_compare_reflexive cfgDefault exampleDoc (fun _ _ => rfl)

/-- C7 (code bug evidence): on the failing input `18446744073709551615`
(u64-only) versus `-1` (i64-only) — an unequal pair of integral numbers —
`compare_numbers` returns no difference for every configuration, against the
claim that integral operands are compared for exact equality.  The remaining
parts of the claim do hold and are included: unequal small integers such as
31 vs 33 always produce a scalar difference whatever the epsilon, and the
floats 1.34 vs 1.341 differ exactly when the epsilon is below 1/1000. -/
theorem c7_integral_exactness_gap :
    (∀ cfg : Config,
      compareNumbers cfg (.posInt 18446744073709551615) (.negInt (-1)) = none) ∧
    decide (JNumber.posInt 18446744073709551615 = JNumber.negInt (-1)) = false ∧
    (JNumber.posInt 18446744073709551615).isF64 = false ∧
    (JNumber.negInt (-1)).isF64 = false ∧
    (∀ cfg : Config, compareNumbers cfg (.posInt 31) (.posInt 33) =
      some (.scalar (.num (.posInt 31) (.posInt 33)))) ∧
    (∀ ε : ℚ, compareNumbers { cfgDefault with epsilon := ε }
        (.float (134 / 100)) (.float (1341 / 1000)) =
      if (1 / 1000 : ℚ) ≤ ε then none
      else some (.scalar (.num (.float (134 / 100)) (.float (1341 / 1000))))) := by
  refine ⟨fun cfg => rfl, by decide, rfl, rfl, fun cfg => rfl, ?_⟩
  intro ε
  unfold compareNumbers
  simp only [JNumber.isU64, JNumber.isI64, JNumber.isF64, JNumber.asF64,
    Bool.and_self, Bool.or_self, Bool.false_and, Bool.and_false, if_false,
    Bool.or_true, Bool.true_or, if_true]
  have habs : |((134 : ℚ) / 100 - 1341 / 1000)| = 1 / 1000 := by
    rw [abs_of_nonpos (by norm_num)]
    norm_num
  have hmax : max |((134 : ℚ) / 100)| |((1341 : ℚ) / 1000)| = 1341 / 1000 := by
    rw [abs_of_nonneg (by norm_num), abs_of_nonneg (by norm_num),
      max_eq_right (by norm_num)]
  by_cases hle : (1 / 1000 : ℚ) ≤ ε
  · have hrel : relativeEq ε ((134 : ℚ) / 100) ((1341 : ℚ) / 1000) = true := by
      unfold relativeEq
      rw [if_neg (by norm_num), habs, if_pos hle]
    have hrhs : (if (1 / 1000 : ℚ) ≤ ε then (none : Option Difference)
        else some (.scalar (.num (.float (134 / 100)) (.float (1341 / 1000))))) =
        none := if_pos hle
    rw [hrhs]
    simp [hrel]
  · have hrel : relativeEq ε ((134 : ℚ) / 100) ((1341 : ℚ) / 1000) = false := by
      unfold relativeEq f64MachineEpsilon
      rw [if_neg (by norm_num), habs, hmax, if_neg hle]
      simp only [decide_eq_false_iff_not]
      norm_num
    have hrhs : (if (1 / 1000 : ℚ) ≤ ε then (none : Option Difference)
        else some (.scalar (.num (.float (134 / 100)) (.float (1341 / 1000))))) =
        some (.scalar (.num (.float (134 / 100)) (.float (1341 / 1000)))) :=
      if_neg hle
    rw [hrhs]
    simp [hrel]

/-- C10: for every pair of numbers where neither operand is a float and the
pair is neither both-u64-representable nor both-i64-representable, the
number comparison returns no difference. -/
theorem c10_mixed_integral_equal (cfg : Config) (s t : JNumber)
    (hs : s.isF64 = false) (ht : t.isF64 = false)
    (hu : (s.isU64 && t.isU64) = false) (hi : (s.isI64 && t.isI64) = false) :
    compareNumbers cfg s t = none := by
  unfold compareNumbers
  rw [hu, hi, hs, ht]
  simp

/-- Witness for C10 at the example input from the claim:
`18446744073709551615` (u64-only) versus `-1` (i64-only). -/
theorem c10_mixed_integral_equal_witness :
    compareNumbers cfgDefault (.posInt 18446744073709551615) (.negInt (-1)) =
      none :=
  c10_mixed_integral_equal cfgDefault _ _ rfl rfl (by decide) (by decide)

/-! ## The parser's error conditions (C9) -/

/-- The diagnoses the parser can emit: one fixed message per error
condition, plus the parameterized invalid-array-index message. -/
def parserErrMsgOk (e : String) : Prop :=
  e = "Empty path is not allowed" ∨ e = "Unclosed quote" ∨
  e = "Unclosed bracket" ∨ e = "Empty quoted string is not allowed" ∨
  e = "Unexpected quote" ∨ e = "Path cannot start with a dot" ∨
  e = "Unexpected closing bracket" ∨ ∃ x, e = "Invalid array index: " ++ x

theorem parseGo_err_msgs : ∀ (cs : List Char) (res : List PathElement)
    (cur : List Char) (q b : Bool) (e : String),
    parseGo res cur q b cs = .error e → parserErrMsgOk e := by
  intro cs
  induction cs with
  | nil =>
    intro res cur q b e h
    unfold parseGo at h
    split_ifs at h
    all_goals try simp_all [parserErrMsgOk]
    all_goals (split_ifs at h; all_goals simp_all [parserErrMsgOk])
  | cons c cs2 ih =>
    intro res cur q b e h
    unfold parseGo at h
    split_ifs at h
    all_goals try (exact ih _ _ _ _ _ h)
    all_goals try (simp only [Except.error.injEq] at h; subst h; simp [parserErrMsgOk])
    all_goals revert h
    all_goals (split; all_goals intro h)
    all_goals try (exact ih _ _ _ _ _ h)
    all_goals simp only [Except.error.injEq] at h
    all_goals subst h
    all_goals exact Or.inr (Or.inr (Or.inr (Or.inr (Or.inr (Or.inr (Or.inr
      ⟨_, rfl⟩))))))

/-- A character with no special role in the path grammar. -/
def plainChar (c : Char) : Bool :=
  !(c == '.' || c == quoteChar || c == '[' || c == ']')

theorem parseGo_plain : ∀ (cs cur : List Char) (res : List PathElement),
    cs.all plainChar = true →
    parseGo res cur false false cs =
      (let full := cur ++ cs
       let res2 := if full.isEmpty then res else res ++ [.key (String.mk full)]
       if res2.isEmpty then .error "Empty path is not allowed" else .ok res2) := by
  intro cs
  induction cs with
  | nil =>
    intro cur res _
    simp [parseGo]
  | cons c cs2 ih =>
    intro cur res hall
    simp only [List.all_cons, Bool.and_eq_true] at hall
    obtain ⟨hc, hall2⟩ := hall
    simp only [plainChar, Bool.not_eq_eq_eq_not, Bool.not_true,
      Bool.or_eq_false_iff, beq_eq_false_iff_ne, ne_eq] at hc
    obtain ⟨⟨⟨hd, hq⟩, hob⟩, hcb⟩ := hc
    unfold parseGo
    rw [if_neg hq, if_neg hd, if_neg hob, if_neg hcb]
    rw [ih (cur ++ [c]) res hall2]
    simp

/-- C9 counterexample: the input `a]` makes the parser fail (with the
diagnosis "Unexpected closing bracket"), yet the input is non-empty, starts
with a plain letter rather than a dot, and contains no quote character and
no opening bracket, so none of the error conditions enumerated by the claim
applies to it. -/
theorem c9_unmatched_bracket_cex :
    parseElementPath "a]" = .error "Unexpected closing bracket" ∧
    "a]".isEmpty = false ∧
    "a]".toList.head? = some 'a' ∧
    decide ('.' ∈ "a]".toList) = false ∧
    decide (quoteChar ∈ "a]".toList) = false ∧
    decide ('[' ∈ "a]".toList) = false :=
  ⟨rfl, rfl, rfl, by decide, by decide, by decide⟩

/-- C9 (amended): the parser errors on empty input, a leading dot, an
unterminated quote, an unclosed bracket, a closing bracket with no matching
open bracket, a quote while a bare token is non-empty, an empty quoted key,
and bracket content that is not a non-negative integer or underscore; every
error it ever returns carries one of exactly these diagnoses; and a
trailing unterminated bare token at end-of-input is accepted as a final key
element. -/
theorem c9_parser_error_conditions :
    parseElementPathList [] = .error "Empty path is not allowed" ∧
    (∀ rest, parseElementPathList ('.' :: rest) =
      .error "Path cannot start with a dot") ∧
    parseElementPathList ['a', '.', quoteChar] = .error "Unclosed quote" ∧
    parseElementPathList [quoteChar, 'a', 'b'] = .error "Unclosed quote" ∧
    parseElementPath "a.[" = .error "Unclosed bracket" ∧
    parseElementPath "[12" = .error "Unclosed bracket" ∧
    (∀ rest, parseElementPathList ('a' :: 'b' :: quoteChar :: rest) =
      .error "Unexpected quote") ∧
    (∀ rest, parseElementPathList (quoteChar :: quoteChar :: rest) =
      .error "Empty quoted string is not allowed") ∧
    (∀ rest, parseElementPathList ('[' :: 'x' :: ']' :: rest) =
      .error "Invalid array index: x") ∧
    (∀ rest, parseElementPathList (']' :: rest) =
      .error "Unexpected closing bracket") ∧
    (∀ (cs : List Char) (e : String), parseElementPathList cs = .error e →
      parserErrMsgOk e) ∧
    (∀ cs : List Char, cs.all plainChar = true → cs.isEmpty = false →
      parseElementPathList cs = .ok [.key (String.mk cs)]) := by
  refine ⟨rfl, fun rest => rfl, rfl, rfl, rfl, rfl, fun rest => rfl,
    fun rest => rfl, fun rest => rfl, fun rest => rfl, ?_, ?_⟩
  · intro cs e h
    unfold parseElementPathList at h
    split_ifs at h with hemp
    · simp only [Except.error.injEq] at h
      subst h
      simp [parserErrMsgOk]
    · exact parseGo_err_msgs cs [] [] false false e h
  · intro cs hall hne
    unfold parseElementPathList
    rw [if_neg (by simp [hne])]
    rw [parseGo_plain cs [] [] hall]
    simp [hne]

/-- Witness for C9: the unmatched-bracket diagnosis is among the possible
ones (via the completeness conjunct at the concrete input `]`), and the
concrete bare token `ab` parses as a single final key. -/
theorem c9_parser_error_conditions_witness :
    parserErrMsgOk "Unexpected closing bracket" ∧
    parseElementPathList ['a', 'b'] = .ok [.key "ab"] :=
  ⟨c9_parser_error_conditions.2.2.2.2.2.2.2.2.2.2.1 [']'] _ rfl,
   c9_parser_error_conditions.2.2.2.2.2.2.2.2.2.2.2 ['a', 'b'] (by decide)
     (by decide)⟩

/-! ## A kernel-computable view of the comparison result

`values` is defined by well-founded recursion and therefore does not reduce
definitionally; for evaluating the engine on concrete documents we derive a
fuel-indexed structural clone and prove it equal. -/

theorem values_obj_fst (cfg : Config) (st : Path)
    (a b : List (String × Value)) :
    (values cfg st (.obj a) (.obj b)).1 =
      (objectsSpecFst cfg st a b).map Difference.object := by
  have h2 : (values cfg st (.obj a) (.obj b)).1 =
      (objects cfg st a b).1.map Difference.object := by
    rw [values.eq_def]
  rw [h2, (engine_master (sizeOf a + sizeOf b)).2.2.2.1 cfg st a b le_rfl]

theorem values_arr_fst (cfg : Config) (st : Path) (a b : List Value) :
    (values cfg st (.arr a) (.arr b)).1 =
      (arraysSpecFst cfg st a b).map Difference.array := by
  have h2 : (values cfg st (.arr a) (.arr b)).1 =
      (arrays cfg st a b).1.map Difference.array := by
    rw [values.eq_def]
  rw [h2, (engine_master (sizeOf a + sizeOf b)).2.1 cfg st a b le_rfl]

/-- The differing-pairs loop over an abstract element comparison `f`. -/
def dpGen (f : Path → Value → Value → Option Difference) (base : Path) :
    Nat → List Value → List Value → List (Nat × Difference)
  | i, s :: ss, t :: ts =>
    match f (base ++ [.arrayIndex (.index i)]) s t with
    | some d => (i, d) :: dpGen f base (i + 1) ss ts
    | none => dpGen f base (i + 1) ss ts
  | _, [], _ => []
  | _, _ :: _, [] => []

/-- The array classification over an abstract element comparison `f`. -/
def arraysFstGen (f : Path → Value → Value → Option Difference) (base : Path)
    (a b : List Value) : Option ArrayDifference :=
  let dp := dpGen f base 0 a b
  let dpOpt : Option (List (Nat × Difference)) :=
    if dp.isEmpty then none else some dp
  if a.length > b.length then some (.longer dpOpt (a.length - b.length))
  else if a.length < b.length then some (.shorter dpOpt (b.drop a.length))
  else dpOpt.map .pairsOnly

/-- The object source-key collection over an abstract child comparison. -/
def oesGen (f : Path → Value → Value → Option Difference) (cfg : Config)
    (base : Path) :
    List (String × Value) → List (String × Value) →
      List (String × EntryDifference) × List (String × Value)
  | [], tgt => ([], tgt)
  | (k, v) :: rest, tgt =>
    if cfg.ignore (base ++ [.key k]) (containsKey tgt k) then
      oesGen f cfg base rest (removeKey tgt k)
    else
      match getValue tgt k with
      | none =>
        let r := oesGen f cfg base rest tgt
        ((k, .extra v) :: r.1, r.2)
      | some tv =>
        let r := oesGen f cfg base rest (removeKey tgt k)
        (match f (base ++ [.key k]) v tv with
         | some d => (k, .value d) :: r.1
         | none => r.1, r.2)

/-- The object entry collection over an abstract child comparison. -/
def objectsFstGen (f : Path → Value → Value → Option Difference)
    (cfg : Config) (base : Path) (a b : List (String × Value)) :
    Option (List (String × EntryDifference)) :=
  let r := oesGen f cfg base a b
  let all := r.1 ++ missingEntriesSpec cfg base r.2
  if all.isEmpty then none else some all

/-- A fuel-indexed, structurally recursive clone of the comparison result:
kernel-computable, and equal to `(values ...).1` whenever the fuel bounds
the input size (`valuesF_eq`). -/
def valuesF : Nat → Config → Path → Value → Value → Option Difference
  | 0, _, _, _, _ => none
  | fuel + 1, cfg, st, s, t =>
    match s, t with
    | .null, .null => none
    | .bool a, .bool b =>
      if a == b then none else some (.scalar (.bool a b))
    | .num a, .num b => compareNumbers cfg a b
    | .str a, .str b => compareStrings cfg a b
    | .arr a, .arr b =>
      (arraysFstGen (valuesF fuel cfg) st a b).map .array
    | .obj a, .obj b =>
      (objectsFstGen (valuesF fuel cfg) cfg st a b).map .object
    | .arr a, .null =>
      if cfg.equateEmptyArrays && a.length == 0 then none
      else some (.type (Value.arr a).toType (.arr a) Value.null.toType .null)
    | .null, .arr b =>
      if cfg.equateEmptyArrays && b.length == 0 then none
      else some (.type Value.null.toType .null (Value.arr b).toType (.arr b))
    | s, t => some (.type s.toType s t.toType t)

theorem valuesF_eq (cfg : Config) : ∀ (fuel : Nat) (st : Path) (s t : Value),
    sizeOf s + sizeOf t ≤ fuel →
    valuesF fuel cfg st s t = (values cfg st s t).1 := by
  intro fuel
  induction fuel with
  | zero =>
    intro st s t hsz
    exfalso
    cases s <;> cases t <;> simp_all
  | succ fuel ih =>
    intro st s t hsz
    rcases s with _ | a | a | a | a | a <;> rcases t with _ | b | b | b | b | b <;>
      try (rw [values.eq_def]
           first
           | rfl
           | (simp only [valuesF, apply_ite]; done)
           | (simp only [apply_ite]; done))
    case null.arr =>
      rw [values.eq_def]
      rcases hq : cfg.equateEmptyArrays && b.length == 0 <;> simp [valuesF, hq]
    case arr.null =>
      rw [values.eq_def]
      rcases hq : cfg.equateEmptyArrays && a.length == 0 <;> simp [valuesF, hq]
    · -- arr / arr
      simp only [Value.arr.sizeOf_spec] at hsz
      rw [values_arr_fst]
      have hdp : ∀ (ss ts : List Value), sizeOf ss + sizeOf ts ≤ fuel →
          ∀ (i : Nat) (base : Path),
          dpGen (valuesF fuel cfg) base i ss ts =
            differentPairsSpec cfg base i ss ts := by
        intro ss
        induction ss with
        | nil =>
          intro ts _ i base
          cases ts <;> simp [dpGen, differentPairsSpec]
        | cons s2 ss2 ihs =>
          intro ts hle i base
          cases ts with
          | nil => simp [dpGen, differentPairsSpec]
          | cons t2 ts2 =>
            simp only [List.cons.sizeOf_spec] at hle
            rw [show dpGen (valuesF fuel cfg) base i (s2 :: ss2) (t2 :: ts2) =
              (match valuesF fuel cfg (base ++ [.arrayIndex (.index i)]) s2 t2 with
               | some d => (i, d) :: dpGen (valuesF fuel cfg) base (i + 1) ss2 ts2
               | none => dpGen (valuesF fuel cfg) base (i + 1) ss2 ts2) from rfl]
            rw [ih _ s2 t2 (by omega)]
            rw [ihs ts2 (by omega) (i + 1) base]
            rw [show differentPairsSpec cfg base i (s2 :: ss2) (t2 :: ts2) =
              (match (values cfg (base ++ [.arrayIndex (.index i)]) s2 t2).1 with
               | some d => (i, d) :: differentPairsSpec cfg base (i + 1) ss2 ts2
               | none => differentPairsSpec cfg base (i + 1) ss2 ts2) from rfl]
      rw [show valuesF (fuel + 1) cfg st (.arr a) (.arr b) =
        (arraysFstGen (valuesF fuel cfg) st a b).map .array from rfl]
      simp only [arraysFstGen, arraysSpecFst, hdp a b (by omega) 0 st]
    · -- obj / obj
      simp only [Value.obj.sizeOf_spec] at hsz
      rw [values_obj_fst]
      have hoe : ∀ (src tgt : List (String × Value)),
          sizeOf src + sizeOf tgt ≤ fuel → ∀ (base : Path),
          oesGen (valuesF fuel cfg) cfg base src tgt =
            objectEntriesSpec cfg base src tgt := by
        intro src
        induction src with
        | nil =>
          intro tgt _ base
          simp [oesGen, objectEntriesSpec]
        | cons e rest ihs =>
          obtain ⟨k, v⟩ := e
          intro tgt hle base
          simp only [List.cons.sizeOf_spec, Prod.mk.sizeOf_spec] at hle
          rw [oesGen, objectEntriesSpec]
          cases hig : cfg.ignore (base ++ [.key k]) (containsKey tgt k)
          · simp only [Bool.false_eq_true, if_false]
            cases hgv : getValue tgt k with
            | none =>
              dsimp only
              rw [ihs tgt (by omega) base]
            | some tv =>
              have htv := getValue_sizeOf_lt hgv
              dsimp only
              rw [ih _ v tv (by omega)]
              rw [ihs (removeKey tgt k)
                (by have := removeKey_sizeOf_le tgt k; omega) base]
          · simp only [if_true]
            rw [ihs (removeKey tgt k)
              (by have := removeKey_sizeOf_le tgt k; omega) base]
      rw [show valuesF (fuel + 1) cfg st (.obj a) (.obj b) =
        (objectsFstGen (valuesF fuel cfg) cfg st a b).map .object from rfl]
      simp only [objectsFstGen, objectsSpecFst, hoe a b (by omega) st]

/-! ## Conditional exemptions (C1)

The repository's conditional-exemption support (`IgnorePathCondition`,
`DiffBuilder::ignore_path_with_condition`, the condition branch of
`Diff::ignore_path`, and `Path::replace_array_index_all_by_exact_path`) is
referenced by `examples/ignore_with_rhai_script.rs`, `src/src/bin/main.rs`
and `src/src/rhai_script.rs`, but its definition is not among the given
source files; those parts are modelled from the spec below. -/

/-- Modelled from the spec: `Path::replace_array_index_all_by_exact_path`,
called in src/src/rhai_script.rs line 15 but missing from the sources.  Per
§4.2 and the doc comment of `value_by_path`, the pattern is walked in
lock-step with the concrete path: `Key` and concrete `Index` elements are
kept from the pattern, and every `All` is replaced by the element of
`currPath` at the same position, failing when that element is not a
concrete index.  §4.2 additionally demands equal lengths, but the §8
conditional-exemption scenario resolves the three-element helper pattern
`users.[_].age` against the four-element visited path, so the model lets
the pattern resolve positionally against a concrete path of a different
length (an `All` with no concrete index at its position still fails). -/
def replaceArrayIndexAllByExactPath : Path → Path → Option Path
  | [], _ => some []
  | .arrayIndex .all :: ps, .arrayIndex (.index n) :: cs =>
    (replaceArrayIndexAllByExactPath ps cs).map (.arrayIndex (.index n) :: ·)
  | .arrayIndex .all :: _, _ => none
  | p :: ps, _ :: cs => (replaceArrayIndexAllByExactPath ps cs).map (p :: ·)
  | p :: ps, [] => (replaceArrayIndexAllByExactPath ps []).map (p :: ·)

/-- The tree-walking loop of `value_by_path` (src/src/rhai_script.rs lines
17-62): `sourceObj` is the `source_obj` register, `value` the `value`
register; a map or array value continues the walk, a scalar is recorded;
missing keys or indices, navigation into a non-container, and a wildcard
index return unit, modelled as `none`.  The final `value.unwrap()` panics
when no scalar was ever recorded; that panic is modelled as `none` too. -/
def valueByPathGo : Value → Option Value → List PathElement → Option Value
  | _, value, [] => value
  | sourceObj, value, .key k :: rest =>
    match sourceObj with
    | .obj m =>
      match getValue m k with
      | none => none
      | some val =>
        match val with
        | .obj _ => valueByPathGo val value rest
        | .arr _ => valueByPathGo val value rest
        | _ => valueByPathGo sourceObj (some val) rest
    | _ => none
  | sourceObj, value, .arrayIndex (.index i) :: rest =>
    match sourceObj with
    | .arr a =>
      match a[i]? with
      | none => none
      | some val =>
        match val with
        | .obj _ => valueByPathGo val value rest
        | .arr _ => valueByPathGo val value rest
        | _ => valueByPathGo sourceObj (some val) rest
    | _ => none
  | _, _, .arrayIndex .all :: _ => none

/-- `value_by_path` from src/src/rhai_script.rs: parse the path string,
resolve its wildcards against the injected current path, then walk the
tree. -/
def valueByPath (sourceObj : Value) (path : String) (currPath : Path) :
    Option Value :=
  match parseElementPath path with
  | .error _ => none
  | .ok els =>
    match replaceArrayIndexAllByExactPath els currPath with
    | none => none
    | some p => valueByPathGo sourceObj none p

/-- Modelled from the spec: a conditional-exemption registry entry —
pattern, ignore-when-missing flag, and optional predicate; the predicate
abstracts the rhai script, receiving the two whole trees and the resolved
concrete path (§3, §6, §9). -/
structure CondIgnorePath where
  path : Path
  ignoreMissing : Bool
  condition : Option (Value → Value → Path → Bool)

/-- Modelled from the spec: the decision table of §4.3 including its
conditional row — take the first wildcard-equal entry; with `hasKey` true
an unconditional entry is exempt, and a conditional entry is exempt iff its
predicate, applied to the two trees and the pattern resolved against the
current path, returns true (a pattern that fails to resolve grants nothing,
§7); with `hasKey` false the `ignoreMissing` flag decides. -/
def ignorePathCond (source target : Value) (entries : List CondIgnorePath)
    (currPath : Path) (hasKey : Bool) : Bool :=
  match entries.find? (fun e => e.path.weq currPath) with
  | none => false
  | some e =>
    if hasKey then
      match e.condition with
      | none => true
      | some cond =>
        match replaceArrayIndexAllByExactPath e.path currPath with
        | some resolved => cond source target resolved
        | none => false
    else e.ignoreMissing

/-- Resolving a pattern against a wildcard-equal concrete path (one with no
wildcards of its own, as every actually-visited path is) reproduces exactly
that concrete path. -/
theorem replaceAll_of_weq : ∀ (pat curr : Path),
    Path.weq pat curr = true →
    (∀ el ∈ curr, el ≠ PathElement.arrayIndex .all) →
    replaceArrayIndexAllByExactPath pat curr = some curr := by
  intro pat
  induction pat with
  | nil =>
    intro curr hw _
    rcases curr with _ | ⟨c, cs⟩
    · rfl
    · simp [Path.weq] at hw
  | cons p ps ih =>
    intro curr hw hall
    rcases curr with _ | ⟨c, cs⟩
    · simp [Path.weq] at hw
    · simp only [Path.weq, List.length_cons, List.zip_cons_cons, List.all_cons,
        Bool.and_eq_true, beq_iff_eq, Nat.add_right_cancel_iff] at hw
      obtain ⟨hlen, hpc, hzip⟩ := hw
      have hw2 : Path.weq ps cs = true := by
        simp [Path.weq, hlen, hzip]
      have hrest := ih cs hw2 (fun el hel => hall el (List.mem_cons_of_mem _ hel))
      have hcall : c ≠ PathElement.arrayIndex .all :=
        hall c (List.mem_cons_self _ _)
      rcases p with k | ⟨⟩ | ⟨⟩
      · rcases c with k2 | j
        · simp only [PathElement.weq, beq_iff_eq] at hpc
          subst hpc
          simp [replaceArrayIndexAllByExactPath, hrest]
        · simp [PathElement.weq] at hpc
      · rcases c with k2 | j
        · simp [PathElement.weq] at hpc
        · rcases j with m2 | _
          · simp only [PathElement.weq, ArrayIndex.weq, beq_iff_eq] at hpc
            subst hpc
            simp [replaceArrayIndexAllByExactPath, hrest]
          · exact absurd rfl hcall
      · rcases c with k2 | j
        · simp [PathElement.weq] at hpc
        · rcases j with m2 | _
          · simp [replaceArrayIndexAllByExactPath, hrest]
          · exact absurd rfl hcall

/-- The documents of examples/ignore_with_rhai_script.rs, parameterized by
the animal type of the second user and that user's age. -/
def exUsers (animalType : String) (age : Nat) : Value :=
  .obj [("users", .arr [
    .obj [("name", .str "Joe"), ("age", .num (.posInt 43))],
    .obj [("name", .str "Ana"), ("age", .num (.posInt age)),
      ("animals", .obj [("type", .str animalType)])]])]

/-- The rhai script of the example, as a predicate: look up `users.[_].age`
in the target via `value_by_path` with the injected current path, and test
the result for the integer 33. -/
def rhaiAgeCond : Value → Value → Path → Bool :=
  fun _ target currPath =>
    match valueByPath target "users.[_].age" currPath with
    | some (.num (.posInt 33)) => true
    | _ => false

/-- The exemption pattern `users.[_].animals.type` of the example. -/
def exPattern : Path :=
  [.key "users", .arrayIndex .all, .key "animals", .key "type"]

/-- The configuration of the example: one conditional exemption, wired
through the spec-modelled conditional registry decision over the two whole
trees. -/
def cfgRhai (src tgt : Value) : Config :=
  { ignore := ignorePathCond src tgt [⟨exPattern, false, some rhaiAgeCond⟩],
    equateEmptyArrays := false, epsilon := 0, duration := 0,
    parseRfc3339 := fun _ => none }

theorem c1_eval33 :
    compare (cfgRhai (exUsers "dog" 33) (exUsers "cat" 33))
      (exUsers "dog" 33) (exUsers "cat" 33) = none := by
  rw [show compare (cfgRhai (exUsers "dog" 33) (exUsers "cat" 33))
      (exUsers "dog" 33) (exUsers "cat" 33) =
    (values (cfgRhai (exUsers "dog" 33) (exUsers "cat" 33)) []
      (exUsers "dog" 33) (exUsers "cat" 33)).1 from rfl]
  rw [← valuesF_eq _ (sizeOf (exUsers "dog" 33) + sizeOf (exUsers "cat" 33))
    [] _ _ le_rfl]
  rfl

theorem c1_eval34 :
    compare (cfgRhai (exUsers "dog" 34) (exUsers "cat" 34))
      (exUsers "dog" 34) (exUsers "cat" 34) =
      some (.object [("users", .value (.array (.pairsOnly [(1,
        .object [("animals", .value (.object [("type",
          .value (.scalar (.str "dog" "cat")))]))])])))]) := by
  rw [show compare (cfgRhai (exUsers "dog" 34) (exUsers "cat" 34))
      (exUsers "dog" 34) (exUsers "cat" 34) =
    (values (cfgRhai (exUsers "dog" 34) (exUsers "cat" 34)) []
      (exUsers "dog" 34) (exUsers "cat" 34)).1 from rfl]
  rw [← valuesF_eq _ (sizeOf (exUsers "dog" 34) + sizeOf (exUsers "cat" 34))
    [] _ _ le_rfl]
  rfl

/-- C1: with a wildcard-equal conditional entry found for the current path
and the opposite side having the key, resolving the pattern against the
concrete path reproduces that path and the exemption is granted exactly
when the predicate, applied to the two whole trees and that resolved path,
returns true; in the spec's scenario the dog/cat difference under
`users.[_].animals.type` is suppressed when the target age at
`users.[_].age` is 33, and with the age changed to 34 the difference at
that location is reported. -/
theorem c1_conditional_exemption :
    (∀ (source target : Value) (entries : List CondIgnorePath) (curr : Path)
        (e : CondIgnorePath) (cond : Value → Value → Path → Bool),
      entries.find? (fun e2 => e2.path.weq curr) = some e →
      e.condition = some cond →
      (∀ el ∈ curr, el ≠ PathElement.arrayIndex .all) →
      replaceArrayIndexAllByExactPath e.path curr = some curr ∧
      ignorePathCond source target entries curr true =
        cond source target curr) ∧
    compare (cfgRhai (exUsers "dog" 33) (exUsers "cat" 33))
      (exUsers "dog" 33) (exUsers "cat" 33) = none ∧
    compare (cfgRhai (exUsers "dog" 34) (exUsers "cat" 34))
      (exUsers "dog" 34) (exUsers "cat" 34) =
      some (.object [("users", .value (.array (.pairsOnly [(1,
        .object [("animals", .value (.object [("type",
          .value (.scalar (.str "dog" "cat")))]))])])))]) := by
  refine ⟨?_, c1_eval33, c1_eval34⟩
  intro source target entries curr e cond hfind hcond hall
  have hw : e.path.weq curr = true := by
    simpa using List.find?_some hfind
  have hres := replaceAll_of_weq e.path curr hw hall
  refine ⟨hres, ?_⟩
  unfold ignorePathCond
  rw [hfind]
  simp [hcond, hres]

/-- Witness for C1 at the example scenario: the pattern resolves to the
concrete visited path, and the decision equals the predicate's verdict
there. -/
theorem c1_conditional_exemption_witness :
    replaceArrayIndexAllByExactPath exPattern
      [.key "users", .arrayIndex (.index 1), .key "animals", .key "type"] =
      some [.key "users", .arrayIndex (.index 1), .key "animals",
        .key "type"] ∧
    ignorePathCond (exUsers "dog" 33) (exUsers "cat" 33)
      [⟨exPattern, false, some rhaiAgeCond⟩]
      [.key "users", .arrayIndex (.index 1), .key "animals", .key "type"]
      true =
      rhaiAgeCond (exUsers "dog" 33) (exUsers "cat" 33)
        [.key "users", .arrayIndex (.index 1), .key "animals", .key "type"] :=
  c1_conditional_exemption.1 (exUsers "dog" 33) (exUsers "cat" 33)
    [⟨exPattern, false, some rhaiAgeCond⟩] _
    ⟨exPattern, false, some rhaiAgeCond⟩ rhaiAgeCond rfl rfl (by decide)

end Sjdiff
